import Mathlib

/-!
# Verification of the Dumper-7-ml dependency/layout/naming core

Shallow embedding of the repository's member comparators
(`PredefinedMembers.h`), ML model encryption (`MLEncryption.h`,
`EncryptedModelRuntime`), and — modelled from the specification, since the
engine's sources are not part of the shipped tree — the dependency walker,
layout normalizer, collision resolver and deterministic pipeline, together
with proofs of the specification's testable properties.
-/

namespace Dumper

/-! ## Member comparators (from `PredefinedMembers.h`) -/

/-- Model of the fields of `UEProperty` read by `CompareUnrealProperties`:
whether the property is a `BoolProperty`, its byte offset (`int32`), and for
bool-properties the bit index inside the byte. -/
structure UEPropertyM where
  isBool : Bool
  offset : Int
  bitIndex : Nat
deriving DecidableEq, Repr

/-- Embedding of `CompareUnrealProperties` (PredefinedMembers.h:73-84): if both sides are
bool-properties at the same offset, compare bit indices; otherwise compare
offsets. -/
def CompareUnrealProperties (Left Right : UEPropertyM) : Bool :=
  if Left.isBool && Right.isBool then
    if Left.offset == Right.offset then
      decide (Left.bitIndex < Right.bitIndex)
    else
      decide (Left.offset < Right.offset)
  else
    decide (Left.offset < Right.offset)

/-- Model of the fields of `PredefinedMember` read by
`ComparePredefinedMembers`: name, offset (`int32`), static flag, and the
bit-field data the comparator never reads. -/
structure PredefinedMemberM where
  Name : String
  Offset : Int
  bIsStatic : Bool
  bIsBitField : Bool
  BitIndex : Nat
deriving DecidableEq, Repr

/-- Embedding of `ComparePredefinedMembers` (PredefinedMembers.h:107-119): both static →
by name; exactly one static → the static one first (`Left.bIsStatic >
Right.bIsStatic` on `bool`); both instance → by offset. -/
def ComparePredefinedMembers (Left Right : PredefinedMemberM) : Bool :=
  if Left.bIsStatic && Right.bIsStatic then
    decide (Left.Name < Right.Name)
  else if Left.bIsStatic || Right.bIsStatic then
    (Left.bIsStatic && !Right.bIsStatic)
  else
    decide (Left.Offset < Right.Offset)

end Dumper

namespace Dumper

/-! ## ML model encryption (from `MLEncryption.h`) -/

/-- Embedding of `ML::EncryptionKey`: a 32-byte key and a 16-byte IV
(`std::array<uint8_t,32>` / `std::array<uint8_t,16>`); bytes are naturals
below 256. -/
structure EncryptionKey where
  Key : List Nat
  IV : List Nat
deriving DecidableEq, Repr

/-- Embedding of `ML::EncryptedModelData`: encrypted byte vector plus the original and
encrypted sizes recorded by `Encrypt`. -/
structure EncryptedModelData where
  EncryptedData : List Nat
  OriginalSize : Nat
  EncryptedSize : Nat
deriving DecidableEq, Repr

/-- Byte used at position `i`: `Key.Key[i % Key.Key.size()]` where the array
size is statically 32. -/
def EncryptionKey.keyByte (K : EncryptionKey) (i : Nat) : Nat :=
  K.Key.getD (i % 32) 0

/-- Byte used at position `i`: `Key.IV[i % Key.IV.size()]` where the array
size is statically 16. -/
def EncryptionKey.ivByte (K : EncryptionKey) (i : Nat) : Nat :=
  K.IV.getD (i % 16) 0

namespace ModelEncryption

/-- Embedding of `ML::ModelEncryption::Encrypt` (MLEncryption.h:57-73): XOR each data byte
with the cycled key byte and IV byte; record sizes.  The `uint8_t` store is
the reduction `% 256`. -/
def Encrypt (Data : List Nat) (Key : EncryptionKey) : EncryptedModelData :=
  { OriginalSize := Data.length
    EncryptedData :=
      (List.range Data.length).map
        (fun i => (Data.getD i 0 ^^^ Key.keyByte i ^^^ Key.ivByte i) % 256)
    EncryptedSize := Data.length }

/-- Embedding of `ML::ModelEncryption::Decrypt` (MLEncryption.h:81-94): result vector of
size `OriginalSize`, zero-initialised; positions below
`min(EncryptedData.size(), OriginalSize)` are XORed back. -/
def Decrypt (E : EncryptedModelData) (Key : EncryptionKey) : List Nat :=
  (List.range E.OriginalSize).map
    (fun i =>
      if i < E.EncryptedData.length then
        (E.EncryptedData.getD i 0 ^^^ Key.keyByte i ^^^ Key.ivByte i) % 256
      else 0)

end ModelEncryption

/-- Embedding of `ML::Security::VerifyModel` (MLEncryption.h:144-149). -/
def Security.VerifyModel (Model : EncryptedModelData) : Prop :=
  Model.OriginalSize > 0 ∧ Model.EncryptedSize > 0 ∧
    Model.EncryptedSize = Model.EncryptedData.length

instance : DecidablePred Security.VerifyModel := fun _ => by
  unfold Security.VerifyModel; infer_instance

/-- State of `ML::EncryptedModelRuntime` (unnamed/part_001): the stored
model, decrypted bytes, key and loaded flag. -/
structure EncryptedModelRuntime where
  EncryptedModel : EncryptedModelData
  DecryptedModel : List Nat
  Key : EncryptionKey
  bIsLoaded : Bool
deriving DecidableEq, Repr

/-- Embedding of the `EncryptedModelRuntime()` default constructor: `bIsLoaded = false`,
value-initialised members. -/
def EncryptedModelRuntime.init : EncryptedModelRuntime :=
  { EncryptedModel := ⟨[], 0, 0⟩
    DecryptedModel := []
    Key := ⟨List.replicate 32 0, List.replicate 16 0⟩
    bIsLoaded := false }

/-- Embedding of `EncryptedModelRuntime::LoadModel` (unnamed/part_001:75-96) as a state
transformer returning the `bool` result and the mutated object. -/
def EncryptedModelRuntime.LoadModel (rt : EncryptedModelRuntime)
    (Model : EncryptedModelData) (DecryptionKey : EncryptionKey) :
    Bool × EncryptedModelRuntime :=
  if ¬ Security.VerifyModel Model then
    (false, rt)
  else
    let rt1 := { rt with EncryptedModel := Model, Key := DecryptionKey }
    let dec := ModelEncryption.Decrypt Model DecryptionKey
    let rt2 := { rt1 with DecryptedModel := dec }
    if dec.isEmpty ∨ dec.length ≠ Model.OriginalSize then
      (false, rt2)
    else
      (true, { rt2 with bIsLoaded := true })

/-- Embedding of `EncryptedModelRuntime::IsLoaded` (unnamed/part_001:154-157). -/
def EncryptedModelRuntime.IsLoaded (rt : EncryptedModelRuntime) : Bool :=
  rt.bIsLoaded

end Dumper

namespace Dumper

/-! ## Dependency graph walker

Modelled from the spec: the Dependency Graph component (spec §4.1) is not
part of the shipped sources (only the generator's headers are); the node
set, edge kinds `inherits`/`member-value`/`member-pointer`, the cycle-aware
depth-first walk with reclassification of pointer-storage closing edges, and
the `UnresolvableCycle` error are reconstructed faithfully from §3, §4.1 and
§7 of the specification. -/

/-- Modelled from the spec: a member's declared storage — embedded by value
or by pointer/reference (spec §3, §4.1). -/
inductive Storage where
  | value
  | ptr
deriving DecidableEq, Repr

/-- Modelled from the spec: a member as the graph sees it — declared storage
and the stable index of the referenced node (spec §3). -/
structure GMember where
  storage : Storage
  typeRef : Nat
deriving DecidableEq, Repr

/-- Modelled from the spec: a graph node — optional super-node index (single
inheritance), member list in declaration order, and a proposed name for the
collision resolver (spec §3). -/
structure GNode where
  superRef : Option Nat
  members : List GMember
  name : String
deriving DecidableEq, Repr

instance : Inhabited GNode := ⟨⟨none, [], ""⟩⟩

/-- Modelled from the spec: the outgoing edges of a node that the walk
follows, in deterministic order — the `inherits` edge first, then the member
edges in member order.  Every member edge starts as `member-value`; the
boolean records whether the member's declared storage is pointer/reference,
which is what licenses reclassification when the edge closes a cycle
(spec §4.1). -/
def GNode.deps (nd : GNode) : List (Nat × Bool) :=
  (match nd.superRef with
   | some s => [(s, false)]
   | none => []) ++
  nd.members.map (fun m => (m.typeRef, m.storage == Storage.ptr))

/-- Modelled from the spec: fatal walker errors (spec §7) — an
`UnresolvableCycle` names the two nodes of the closing by-value edge;
`outOfFuel` is the recursion bound of the embedding (never reached when the
walk is given its standard fuel). -/
inductive WalkError where
  | unresolvableCycle (fromNode toNode : Nat)
  | outOfFuel
deriving DecidableEq, Repr

/-- Modelled from the spec: walker state — post-order emission list ("already
emitted this run"), the current DFS stack ("currently on this walk's
stack"), and the member edges reclassified to `member-pointer`
(forward-declared members), as `(owner, target)` pairs (spec §4.1, §6). -/
structure WalkState where
  order : List Nat
  onStack : List Nat
  fwd : List (Nat × Nat)
deriving DecidableEq, Repr

/-- Modelled from the spec: process the dependency edges of node `i`, given
the visitation function `visitF` for the remaining recursion depth.  A
target already on the stack closes a cycle: the edge is reclassified to
`member-pointer` (recorded in `fwd`) iff the member's declared storage is
pointer/reference, otherwise the walk aborts with `UnresolvableCycle`
(spec §4.1, §7). -/
def visitDeps (visitF : Nat → WalkState → Except WalkError WalkState)
    (i : Nat) : List (Nat × Bool) → WalkState → Except WalkError WalkState
  | [], st => .ok st
  | (t, isPtr) :: ds, st =>
    if t ∈ st.onStack then
      if isPtr then
        visitDeps visitF i ds { st with fwd := st.fwd ++ [(i, t)] }
      else
        .error (.unresolvableCycle i t)
    else
      match visitF t st with
      | .error e => .error e
      | .ok st1 => visitDeps visitF i ds st1

/-- Modelled from the spec: depth-first visit of a single node (spec §4.1).
An already-emitted node is skipped; otherwise the node is pushed on the
stack, its dependencies are processed in deterministic order, the stack is
restored, and the node is appended to the emission order (post-order). -/
def visit (ns : List GNode) : Nat → Nat → WalkState → Except WalkError WalkState
  | 0, _, _ => .error .outOfFuel
  | fuel + 1, i, st =>
    if i ∈ st.order then .ok st
    else
      match visitDeps (fun t st1 => visit ns fuel t st1) i
          (ns.getD i default).deps { st with onStack := i :: st.onStack } with
      | .error e => .error e
      | .ok st2 => .ok { st2 with onStack := st.onStack, order := st2.order ++ [i] }

/-- Modelled from the spec: fuel that always suffices — the nesting depth of
`visit` is bounded by the number of distinct stacked nodes plus one. -/
def fuelBound (ns : List GNode) : Nat :=
  ns.length + 2

/-- Modelled from the spec: `visit_all` over a given iteration order of the
node set (spec §4.1): visit the roots one after another, starting from the
empty state. -/
def visitRoots (ns : List GNode) (roots : List Nat) : Except WalkError WalkState :=
  roots.foldlM (fun st i => visit ns (fuelBound ns) i st) ⟨[], [], []⟩

/-- Modelled from the spec: the dependency walk over the whole node set, in
ascending stable-index order (spec §4.1 "Determinism"). -/
def visit_all (ns : List GNode) : Except WalkError WalkState :=
  visitRoots ns (List.range ns.length)

/-- Modelled from the spec: well-formedness of the scanner-supplied node set
— every super reference and member type reference resolves to an index
inside the node set (spec §6; dangling references are a scanner-side bug). -/
def WFNodes (ns : List GNode) : Prop :=
  ∀ nd ∈ ns,
    (∀ s, nd.superRef = some s → s < ns.length) ∧
    (∀ m ∈ nd.members, m.typeRef < ns.length)

instance : DecidablePred WFNodes := fun ns => by
  unfold WFNodes; infer_instance

/-- Proposition that `a` is emitted strictly before `b` in the order `l`. -/
def precedes (l : List Nat) (a b : Nat) : Prop :=
  a ∈ l ∧ b ∈ l ∧ l.indexOf a < l.indexOf b

instance : ∀ l a b, Decidable (precedes l a b) := fun l a b => by
  unfold precedes; infer_instance

end Dumper

namespace Dumper

/-! ## Layout normalizer

Modelled from the spec: the Layout Normalizer (spec §4.3) is not part of the
shipped sources; members with their optional bit-field descriptors, the
sorting of §4.3 step 2 (ascending offset, bit-field members at the same
offset further by ascending bit index), the grouping of same-offset
bit-field members into one backing storage unit sized to the smallest
primitive holding the highest bit index + bit width, the offset-sorted
cursor walk with synthesized padding spanning each gap, and the
`LayoutInconsistency` failure are reconstructed from §3, §4.3 and §7. -/

/-- Modelled from the spec: a member's optional bit-field descriptor — bit
index and bit width (spec §3). -/
structure BitfieldInfo where
  bitIndex : Nat
  bitWidth : Nat
deriving DecidableEq, Repr

/-- Modelled from the spec: a raw member as supplied by the scanner — name,
byte offset, byte size, static flag and optional bit-field descriptor
(spec §3). -/
structure LMember where
  name : String
  offset : Nat
  size : Nat
  isStatic : Bool
  bitfield : Option BitfieldInfo
deriving DecidableEq, Repr

/-- Modelled from the spec: a node as the normalizer sees it — declared byte
size, the super-type's size when a super exists (the cursor's start), and
the raw member list (spec §4.3, §9 "Deep inheritance"). -/
structure LNode where
  size : Nat
  superSize : Option Nat
  members : List LMember
deriving DecidableEq, Repr

/-- Modelled from the spec: one entry of the normalized sequence — a real
member, a backing storage unit holding a group of same-offset bit-field
members (spec §4.3 "Bit-fields"), or a synthesized padding member named
deterministically from its offset (spec §4.3 step 3). -/
inductive LayoutEntry where
  | member (m : LMember)
  | bitfieldUnit (offset size : Nat) (ms : List LMember)
  | padding (offset size : Nat)
deriving DecidableEq, Repr

/-- Byte offset of a normalized entry. -/
def LayoutEntry.off : LayoutEntry → Nat
  | .member m => m.offset
  | .bitfieldUnit o _ _ => o
  | .padding o _ => o

/-- Byte extent of a normalized entry. -/
def LayoutEntry.ext : LayoutEntry → Nat
  | .member m => m.size
  | .bitfieldUnit _ s _ => s
  | .padding _ s => s

/-- Modelled from the spec: deterministic padding name derived from the
cursor offset (spec §4.3 step 3). -/
def paddingName (offset : Nat) : String :=
  "Pad_" ++ toString offset

/-- Modelled from the spec: the ordering of §4.3 step 2 — ascending offset,
and bit-field members sharing an offset further by ascending bit index. -/
def memberLt (a b : LMember) : Bool :=
  decide (a.offset < b.offset) ||
    (decide (a.offset = b.offset) &&
      match a.bitfield, b.bitfield with
      | some ba, some bb => decide (ba.bitIndex < bb.bitIndex)
      | _, _ => false)

/-- Insertion of a member into a sorted list, after any element it does not
strictly precede (stable). -/
def insertMember (m : LMember) : List LMember → List LMember
  | [] => [m]
  | x :: xs => if memberLt m x then m :: x :: xs else x :: insertMember m xs

/-- Modelled from the spec: stable sort of the non-static members by the
step-2 ordering (spec §4.3 step 2). -/
def sortMembers (ms : List LMember) : List LMember :=
  ms.foldl (fun acc m => insertMember m acc) []

/-- Modelled from the spec: the smallest primitive size in bytes holding the
given number of bits (spec §4.3 "Bit-fields": the backing unit is sized to
the smallest primitive holding the highest bit index + bit width); more than
64 bits fits no primitive and is a fatal `LayoutInconsistency`. -/
def backingSize (maxBits : Nat) : Option Nat :=
  if maxBits ≤ 8 then some 1
  else if maxBits ≤ 16 then some 2
  else if maxBits ≤ 32 then some 4
  else if maxBits ≤ 64 then some 8
  else none

/-- Modelled from the spec: close an open group of same-offset bit-field
members into its backing storage unit (spec §4.3 "Bit-fields"). -/
def closeGroup (offset maxBits : Nat) (grp : List LMember) : Option LayoutEntry :=
  match backingSize maxBits with
  | some s => some (.bitfieldUnit offset s grp)
  | none => none

/-- Modelled from the spec: group maximal runs of same-offset bit-field
members of the sorted member list into backing storage units; non-bit-field
members pass through unchanged (spec §4.3 "Bit-fields": bit-field members do
not individually trigger padding logic, only the backing unit does).  The
accumulator holds the open group: its offset, the highest bit index + bit
width seen, and its members in order. -/
def groupBitfields : Option (Nat × Nat × List LMember) → List LMember →
    Option (List LayoutEntry)
  | none, [] => some []
  | some (o, mb, grp), [] =>
    match closeGroup o mb grp with
    | some u => some [u]
    | none => none
  | none, m :: ms =>
    match m.bitfield with
    | none =>
      match groupBitfields none ms with
      | some rest => some (.member m :: rest)
      | none => none
    | some b => groupBitfields (some (m.offset, b.bitIndex + b.bitWidth, [m])) ms
  | some (o, mb, grp), m :: ms =>
    match m.bitfield with
    | none =>
      match closeGroup o mb grp, groupBitfields none ms with
      | some u, some rest => some (u :: .member m :: rest)
      | _, _ => none
    | some b =>
      if m.offset = o then
        groupBitfields (some (o, max mb (b.bitIndex + b.bitWidth), grp ++ [m])) ms
      else
        match closeGroup o mb grp,
            groupBitfields (some (m.offset, b.bitIndex + b.bitWidth, [m])) ms with
        | some u, some rest => some (u :: rest)
        | _, _ => none

/-- Modelled from the spec: the cursor walk of §4.3 steps 3-5 over the
grouped layout units — gaps are spanned by padding, overlapping units
(`offset < cursor`) and units running past the node size are the fatal
`LayoutInconsistency` (`none`). -/
def fillGaps (size : Nat) : Nat → List LayoutEntry → Option (List LayoutEntry)
  | cursor, [] =>
    if cursor < size then some [.padding cursor (size - cursor)]
    else if cursor = size then some []
    else none
  | cursor, u :: us =>
    if u.off < cursor then none
    else if cursor < u.off then
      match fillGaps size (u.off + u.ext) us with
      | some rest => some (.padding cursor (u.off - cursor) :: u :: rest)
      | none => none
    else
      match fillGaps size (u.off + u.ext) us with
      | some rest => some (u :: rest)
      | none => none

/-- Modelled from the spec: `normalize(node)` (spec §4.3) — partition off the
static members, sort the non-static members by the step-2 ordering, group
same-offset bit-field members into backing storage units, and run the cursor
walk from the super-type's size (or 0) to the declared node size. -/
def normalize (node : LNode) : Option (List LayoutEntry) :=
  match groupBitfields none
      (sortMembers (node.members.filter (fun m => !m.isStatic))) with
  | some units => fillGaps node.size (node.superSize.getD 0) units
  | none => none

/-- The start offset of a node's own layout: its super's size, else 0. -/
def LNode.start (node : LNode) : Nat :=
  node.superSize.getD 0

/-- The normalized sequence tiles `[cursor, size)` exactly: each entry begins
at the cursor and advances it by its extent, ending exactly at `size`. -/
def covers (size : Nat) : Nat → List LayoutEntry → Prop
  | cursor, [] => cursor = size
  | cursor, e :: es => e.off = cursor ∧ covers size (cursor + e.ext) es

instance : ∀ size cursor es, Decidable (covers size cursor es) := fun size cursor es => by
  induction es generalizing cursor with
  | nil => unfold covers; infer_instance
  | cons e es ih =>
    unfold covers
    have := ih
    infer_instance

end Dumper

namespace Dumper

/-! ## Collision resolver

Modelled from the spec: the Collision Resolver (spec §4.4) is not part of
the shipped sources; the per-scope issued-name set, the reserved-word list,
the incrementing numeric suffix in first-seen order, the idempotent
re-resolution memo for a logical entity, and the `NameSpaceExhausted`
failure are reconstructed from §4.4 and §7.  Scopes and logical entities are
stable integer handles. -/

/-- Modelled from the spec: fatal resolver error — the bounded suffix space
is exhausted (spec §7 `NameSpaceExhausted`, names scope and proposed
name). -/
inductive NameError where
  | nameSpaceExhausted (scope : Nat) (proposed : String)
deriving DecidableEq, Repr

/-- Modelled from the spec: resolver state — the set of already-issued
`(scope, name)` pairs and the memo mapping each logical entity
`(scope, entity)` to its final name, both in first-seen order. -/
structure ResolverState where
  issued : List (Nat × String)
  memo : List ((Nat × Nat) × String)
deriving DecidableEq, Repr

/-- Lookup of a logical entity's previously assigned final name. -/
def memoLookup (k : Nat × Nat) : List ((Nat × Nat) × String) → Option String
  | [] => none
  | e :: es => if e.1 = k then some e.2 else memoLookup k es

/-- Modelled from the spec: a candidate name is free in a scope when it was
never issued there and is not a reserved word (spec §4.4). -/
def nameFree (reserved : List String) (st : ResolverState) (scope : Nat)
    (n : String) : Bool :=
  decide ((scope, n) ∉ st.issued) && decide (n ∉ reserved)

/-- Modelled from the spec: the `k`-th suffixed candidate for a proposed
name (spec §4.4, scenario E: second requester of `Class` gets
`Class_0`). -/
def candidateName (proposed : String) (k : Nat) : String :=
  proposed ++ "_" ++ toString k

/-- Modelled from the spec: search the bounded suffix space for the first
free candidate, in ascending suffix order (spec §4.4). -/
def findSuffix (reserved : List String) (st : ResolverState) (scope : Nat)
    (proposed : String) : Nat → Nat → Option String
  | 0, _ => none
  | fuel + 1, k =>
    if nameFree reserved st scope (candidateName proposed k) then
      some (candidateName proposed k)
    else
      findSuffix reserved st scope proposed fuel (k + 1)

/-- Modelled from the spec: `resolve(scope, proposed_name)` for a logical
entity (spec §4.4) — a memoised entity gets its recorded name back; a free
proposed name is issued unchanged; otherwise the first free suffixed
candidate is issued; an exhausted suffix space is the fatal
`NameSpaceExhausted`. -/
def resolve (reserved : List String) (st : ResolverState) (scope entity : Nat)
    (proposed : String) : Except NameError (String × ResolverState) :=
  match memoLookup (scope, entity) st.memo with
  | some n => .ok (n, st)
  | none =>
    if nameFree reserved st scope proposed then
      .ok (proposed,
        { issued := st.issued ++ [(scope, proposed)]
          memo := st.memo ++ [((scope, entity), proposed)] })
    else
      match findSuffix reserved st scope proposed
          (st.issued.length + reserved.length + 1) 0 with
      | some n =>
        .ok (n,
          { issued := st.issued ++ [(scope, n)]
            memo := st.memo ++ [((scope, entity), n)] })
      | none => .error (.nameSpaceExhausted scope proposed)

/-- Modelled from the spec: resolve a stream of
`(scope, entity, proposed_name)` requests in first-seen order, from the
empty per-run state, returning the final names in request order (spec
§4.4). -/
def resolveAll (reserved : List String) (reqs : List (Nat × Nat × String)) :
    Except NameError (List String × ResolverState) :=
  reqs.foldlM
    (fun acc r => do
      let (n, st) ← resolve reserved acc.2 r.1 r.2.1 r.2.2
      pure (acc.1 ++ [n], st))
    ([], ⟨[], []⟩)

end Dumper

namespace Dumper

/-! ## Full pipeline (scheduler entry point)

Modelled from the spec: the Type/Package Scheduler (spec §4.2, §5) drives
the walker over the node set and feeds every visited node's identifier to
the collision resolver; iteration over the unordered node set is resolved by
ascending stable node index before visiting (spec §4.1 "Determinism"). -/

/-- Modelled from the spec: a fatal pipeline error — from the walker or from
the resolver (spec §7). -/
inductive PipelineError where
  | walk (e : WalkError)
  | name (e : NameError)
deriving DecidableEq, Repr

/-- Modelled from the spec: the full pipeline on a node set, given the
iteration order in which an unordered container presents the node indices.
The order is first resolved to ascending stable index, then the dependency
walk runs and every emitted node's proposed name is resolved in emission
order (spec §4.1 "Determinism", §4.2). -/
def fullPipeline (ns : List GNode) (iter : List Nat) :
    Except PipelineError (List Nat × List (Nat × Nat) × List String) :=
  match visitRoots ns (List.insertionSort (· ≤ ·) iter) with
  | .error e => .error (.walk e)
  | .ok st =>
    match resolveAll [] (st.order.map (fun i => (0, i, (ns.getD i default).name))) with
    | .error e => .error (.name e)
    | .ok (names, _) => .ok (st.order, st.fwd, names)

end Dumper

namespace Dumper

/-! ## Verification infrastructure: invariants of the walker and resolver -/

/-- Invariant of the walker state: the emission order is duplicate-free,
disjoint from the stack, bounded by the node set; every emitted node's
dependencies either precede it in the order or are reclassified
pointer-storage edges; and every reclassified edge comes from a
pointer-storage member. -/
def WalkInv (ns : List GNode) (st : WalkState) : Prop :=
  st.order.Nodup ∧
  (∀ j ∈ st.order, j ∉ st.onStack) ∧
  (∀ j ∈ st.order, j < ns.length) ∧
  (∀ j ∈ st.order, ∀ d ∈ (ns.getD j default).deps,
      ((j, d.1) ∈ st.fwd ∧ d.2 = true) ∨ precedes st.order d.1 j) ∧
  (∀ p ∈ st.fwd, ∃ m ∈ (ns.getD p.1 default).members,
      m.typeRef = p.2 ∧ m.storage = Storage.ptr)

/-- Specification of a successful call of a visitation function: the
invariant is preserved, the stack is restored, order and reclassification
list grow monotonically, and the visited node ends up emitted. -/
def VisitFSpec (ns : List GNode)
    (visitF : Nat → WalkState → Except WalkError WalkState) : Prop :=
  ∀ i st st', WalkInv ns st → i < ns.length → i ∉ st.onStack →
    visitF i st = .ok st' →
    WalkInv ns st' ∧ st'.onStack = st.onStack ∧
    (∃ tl, st'.order = st.order ++ tl) ∧
    (∃ tf, st'.fwd = st.fwd ++ tf) ∧
    i ∈ st'.order

/-- Specification of a `visit` call at a given fuel. -/
def VisitSpec (ns : List GNode) (fuel : Nat) : Prop :=
  VisitFSpec ns (fun t st1 => visit ns fuel t st1)

/-- Specification of a successful `visitDeps` call over a visitation
function: as `VisitFSpec`, and additionally every processed dependency is
either emitted or reclassified — the latter only for pointer-storage
edges. -/
def VisitDepsSpec (ns : List GNode)
    (visitF : Nat → WalkState → Except WalkError WalkState) : Prop :=
  ∀ i ds st st', WalkInv ns st → i < ns.length → i ∈ st.onStack →
    (∀ d ∈ ds, d ∈ (ns.getD i default).deps) →
    visitDeps visitF i ds st = .ok st' →
    WalkInv ns st' ∧ st'.onStack = st.onStack ∧
    (∃ tl, st'.order = st.order ++ tl) ∧
    (∃ tf, st'.fwd = st.fwd ++ tf) ∧
    (∀ d ∈ ds, ((i, d.1) ∈ st'.fwd ∧ d.2 = true) ∨ d.1 ∈ st'.order)

/-- Invariant of the resolver state: every memoised name was issued in its
scope, memo keys are unambiguous, and distinct logical entities of one scope
hold distinct final names. -/
def RInv (st : ResolverState) : Prop :=
  (∀ p ∈ st.memo, (p.1.1, p.2) ∈ st.issued) ∧
  (∀ p ∈ st.memo, ∀ q ∈ st.memo, p.1 = q.1 → p = q) ∧
  (∀ p ∈ st.memo, ∀ q ∈ st.memo, p.1.1 = q.1.1 → p.1.2 ≠ q.1.2 → p.2 ≠ q.2)

end Dumper

namespace Dumper

/-! ## Theorems: member comparators (C7, C8) -/

/-- C7 (amended).  Characterization of the two member comparators: in
`ComparePredefinedMembers`, two static members are ordered lexically by
name, a static member precedes a non-static one (statics form a group), and
two non-static members are ordered by ascending offset — with no bit-index
tie-break at equal offsets.  In `CompareUnrealProperties`, two
bool-properties at the same offset are ordered by ascending bit index, and
every other pair is ordered by ascending offset. -/
theorem member_comparators_characterization :
    (∀ L R : PredefinedMemberM,
      (L.bIsStatic = true → R.bIsStatic = true →
        ComparePredefinedMembers L R = decide (L.Name < R.Name)) ∧
      (L.bIsStatic = true → R.bIsStatic = false →
        ComparePredefinedMembers L R = true) ∧
      (L.bIsStatic = false → R.bIsStatic = true →
        ComparePredefinedMembers L R = false) ∧
      (L.bIsStatic = false → R.bIsStatic = false →
        ComparePredefinedMembers L R = decide (L.Offset < R.Offset))) ∧
    (∀ L R : UEPropertyM,
      (L.isBool = true → R.isBool = true → L.offset = R.offset →
        CompareUnrealProperties L R = decide (L.bitIndex < R.bitIndex)) ∧
      ((L.isBool && R.isBool) = false →
        CompareUnrealProperties L R = decide (L.offset < R.offset)) ∧
      (L.offset ≠ R.offset →
        CompareUnrealProperties L R = decide (L.offset < R.offset))) := by
  constructor
  · intro L R
    refine ⟨fun hL hR => ?_, fun hL hR => ?_, fun hL hR => ?_, fun hL hR => ?_⟩ <;>
      simp [ComparePredefinedMembers, hL, hR]
  · intro L R
    refine ⟨fun hL hR hOff => ?_, fun h => ?_, fun h => ?_⟩
    · simp [CompareUnrealProperties, hL, hR, hOff]
    · simp [CompareUnrealProperties, h]
    · cases hL : L.isBool <;> cases hR : R.isBool <;>
        simp [CompareUnrealProperties, hL, hR, h]

/-- C7 witness: the characterization applied at concrete members — two
non-static members at offsets 0 and 4 compare by offset, and two
bool-properties at one offset compare by bit index. -/
theorem member_comparators_characterization_witness :
    ComparePredefinedMembers ⟨"A", 0, false, false, 0⟩ ⟨"B", 4, false, false, 0⟩ =
      decide ((0 : Int) < 4) ∧
    CompareUnrealProperties ⟨true, 8, 0⟩ ⟨true, 8, 3⟩ = decide ((0 : Nat) < 3) :=
  ⟨(member_comparators_characterization.1
      ⟨"A", 0, false, false, 0⟩ ⟨"B", 4, false, false, 0⟩).2.2.2 rfl rfl,
   (member_comparators_characterization.2 ⟨true, 8, 0⟩ ⟨true, 8, 3⟩).1 rfl rfl rfl⟩

/-- C7 counterexample: two non-static bit-field members of a
`PredefinedMember` list sharing offset 0 with bit indices 0 < 1 are *not*
ordered by ascending bit index by `ComparePredefinedMembers` — the
comparator never reads `bIsBitField`/`BitIndex`, so the pair is
incomparable, refuting the claim that bit-field members sharing an offset
are further ordered by ascending bit index in every member comparator. -/
theorem comparePredefinedMembers_ignores_bit_index :
    (PredefinedMemberM.mk "b0" 0 false true 0).bIsBitField = true ∧
    (PredefinedMemberM.mk "b1" 0 false true 1).bIsBitField = true ∧
    (PredefinedMemberM.mk "b0" 0 false true 0).Offset =
      (PredefinedMemberM.mk "b1" 0 false true 1).Offset ∧
    (PredefinedMemberM.mk "b0" 0 false true 0).BitIndex <
      (PredefinedMemberM.mk "b1" 0 false true 1).BitIndex ∧
    ComparePredefinedMembers (PredefinedMemberM.mk "b0" 0 false true 0)
      (PredefinedMemberM.mk "b1" 0 false true 1) = false := by
  refine ⟨rfl, rfl, rfl, by decide, by decide⟩

/-- C8 (code bug).  `CompareUnrealProperties` is not a strict weak ordering,
contrary to the `requires strict weak ordering` comment above it: with
`A = bool-property@0 bit 0`, `B = non-bool@0`, `C = bool-property@0 bit 1`,
`A` and `B` are incomparable, `B` and `C` are incomparable, yet `A` compares
less than `C` — incomparability is not transitive, which `std::sort`'s
strict-weak-ordering contract requires. -/
theorem compareUnrealProperties_incomparability_not_transitive :
    CompareUnrealProperties ⟨true, 0, 0⟩ ⟨false, 0, 0⟩ = false ∧
    CompareUnrealProperties ⟨false, 0, 0⟩ ⟨true, 0, 0⟩ = false ∧
    CompareUnrealProperties ⟨false, 0, 0⟩ ⟨true, 0, 1⟩ = false ∧
    CompareUnrealProperties ⟨true, 0, 1⟩ ⟨false, 0, 0⟩ = false ∧
    CompareUnrealProperties ⟨true, 0, 0⟩ ⟨true, 0, 1⟩ = true := by
  decide

end Dumper

namespace Dumper

/-! ## Theorems: ML model encryption (C9, C10) -/

/-- Every byte drawn from a list of bytes below 256 (with default 0) is
below 256. -/
theorem getD_lt_256 {l : List Nat} (h : ∀ b ∈ l, b < 256) (i : Nat) :
    l.getD i 0 < 256 := by
  rw [List.getD_eq_getElem?_getD]
  cases hg : l[i]? with
  | none => simp
  | some b => simpa using h b (List.getElem?_mem hg)

/-- XOR with a key byte and an IV byte is undone by XORing again. -/
theorem xor_key_iv_cancel (d k v : Nat) : ((d ^^^ k ^^^ v) ^^^ k) ^^^ v = d := by
  rw [Nat.xor_assoc (d ^^^ k ^^^ v) k v, Nat.xor_assoc d k v,
    Nat.xor_cancel_right]

/-- C9.  The ML model XOR encryption round-trips: decrypting an encrypted
byte vector with the same key returns the original vector, byte for byte —
`Decrypt` allocates `OriginalSize` output bytes and XORs each one with the
same cycled key and IV bytes that `Encrypt` used. -/
theorem encrypt_decrypt_roundtrip (Data : List Nat) (Key : EncryptionKey)
    (hD : ∀ b ∈ Data, b < 256) (hK : ∀ b ∈ Key.Key, b < 256)
    (hV : ∀ b ∈ Key.IV, b < 256) :
    ModelEncryption.Decrypt (ModelEncryption.Encrypt Data Key) Key = Data := by
  unfold ModelEncryption.Decrypt ModelEncryption.Encrypt
  apply List.ext_getElem
  · simp
  · intro n h1 h2
    simp only [List.length_map, List.length_range] at h1
    have hkb : Key.keyByte n < 256 := getD_lt_256 hK _
    have hvb : Key.ivByte n < 256 := getD_lt_256 hV _
    have hd : Data.getD n 0 < 256 := getD_lt_256 hD _
    have hlt : Data.getD n 0 ^^^ Key.keyByte n ^^^ Key.ivByte n < 256 := by
      have h8 : (256 : Nat) = 2 ^ 8 := by norm_num
      rw [h8] at hd hkb hvb ⊢
      exact Nat.xor_lt_two_pow (Nat.xor_lt_two_pow hd hkb) hvb
    rw [List.getElem_map]
    rw [List.getElem_range]
    have hinner :
        (List.map
            (fun i => (Data.getD i 0 ^^^ Key.keyByte i ^^^ Key.ivByte i) % 256)
            (List.range Data.length)).getD n 0 =
          (Data.getD n 0 ^^^ Key.keyByte n ^^^ Key.ivByte n) % 256 := by
      rw [List.getD_eq_getElem?_getD, List.getElem?_map, List.getElem?_range h2]
      rfl
    have hlen :
        (List.map
            (fun i => (Data.getD i 0 ^^^ Key.keyByte i ^^^ Key.ivByte i) % 256)
            (List.range Data.length)).length = Data.length := by
      simp
    rw [if_pos (by rw [hlen]; exact h2), hinner, Nat.mod_eq_of_lt hlt,
      xor_key_iv_cancel, Nat.mod_eq_of_lt hd, List.getD_eq_getElem Data 0 h2]

/-- C9 witness: the round-trip applied at a concrete three-byte vector and a
concrete key. -/
theorem encrypt_decrypt_roundtrip_witness :
    ModelEncryption.Decrypt
        (ModelEncryption.Encrypt [1, 2, 250]
          ⟨List.replicate 32 7, List.replicate 16 9⟩)
        ⟨List.replicate 32 7, List.replicate 16 9⟩ = [1, 2, 250] :=
  encrypt_decrypt_roundtrip [1, 2, 250] ⟨List.replicate 32 7, List.replicate 16 9⟩
    (by decide) (by decide) (by decide)

/-- Decryption always produces exactly `OriginalSize` bytes. -/
theorem decrypt_length (Model : EncryptedModelData) (Key : EncryptionKey) :
    (ModelEncryption.Decrypt Model Key).length = Model.OriginalSize := by
  simp [ModelEncryption.Decrypt]

/-- C10 (amended).  `LoadModel` returns `true` if and only if
`Security::VerifyModel` accepts the model; under that precondition the
post-decryption failure branch (decrypted data empty or of size different
from `OriginalSize`) is unreachable, because `Decrypt` always yields exactly
`OriginalSize` bytes and `VerifyModel` forces `OriginalSize > 0`; and
afterwards `IsLoaded()` returns `true` exactly when `LoadModel` returned
`true` or the runtime was already loaded before the call (on a freshly
constructed runtime this is exactly the returned value). -/
theorem loadModel_characterization (rt : EncryptedModelRuntime)
    (Model : EncryptedModelData) (Key : EncryptionKey) :
    ((rt.LoadModel Model Key).1 = true ↔ Security.VerifyModel Model) ∧
    (Security.VerifyModel Model →
      ¬((ModelEncryption.Decrypt Model Key).isEmpty = true ∨
        (ModelEncryption.Decrypt Model Key).length ≠ Model.OriginalSize)) ∧
    (rt.LoadModel Model Key).2.IsLoaded =
      ((rt.LoadModel Model Key).1 || rt.IsLoaded) := by
  have hlen : (ModelEncryption.Decrypt Model Key).length = Model.OriginalSize :=
    decrypt_length Model Key
  have hbranch : Security.VerifyModel Model →
      ¬((ModelEncryption.Decrypt Model Key).isEmpty = true ∨
        (ModelEncryption.Decrypt Model Key).length ≠ Model.OriginalSize) := by
    intro hV h
    rcases h with h | h
    · rw [List.isEmpty_iff_length_eq_zero, hlen] at h
      exact absurd hV.1 (by omega)
    · exact h hlen
  by_cases hV : Security.VerifyModel Model
  · have hfail : ¬(ModelEncryption.Decrypt Model Key = [] ∨
        ¬(ModelEncryption.Decrypt Model Key).length = Model.OriginalSize) := by
      intro h
      apply hbranch hV
      rcases h with h | h
      · exact Or.inl (List.isEmpty_iff.mpr h)
      · exact Or.inr h
    refine ⟨?_, hbranch, ?_⟩ <;>
      simp [EncryptedModelRuntime.LoadModel, hV, EncryptedModelRuntime.IsLoaded,
        hfail]
  · refine ⟨?_, hbranch, ?_⟩ <;>
      simp [EncryptedModelRuntime.LoadModel, hV, EncryptedModelRuntime.IsLoaded]

/-- C10 witness: the characterization applied to a freshly constructed
runtime and a valid one-byte model — `LoadModel` succeeds, the failure
branch is refuted concretely, and `IsLoaded` afterwards equals the returned
value. -/
theorem loadModel_characterization_witness :
    Security.VerifyModel ⟨[5], 1, 1⟩ ∧
    ¬((ModelEncryption.Decrypt ⟨[5], 1, 1⟩ EncryptedModelRuntime.init.Key).isEmpty = true ∨
      (ModelEncryption.Decrypt ⟨[5], 1, 1⟩ EncryptedModelRuntime.init.Key).length ≠
        (EncryptedModelData.mk [5] 1 1).OriginalSize) :=
  ⟨by decide,
   (loadModel_characterization EncryptedModelRuntime.init ⟨[5], 1, 1⟩
      EncryptedModelRuntime.init.Key).2.1 (by decide)⟩

/-- C10 counterexample: on a runtime that is already loaded, a failing
`LoadModel` (here: a model rejected by `VerifyModel`) returns `false` while
`IsLoaded()` still returns `true` afterwards — so "`IsLoaded()` returns
`true` afterwards exactly when `LoadModel` returned `true`" fails for
non-fresh runtimes; the failure branches never reset `bIsLoaded`. -/
theorem loadModel_false_but_isLoaded_true :
    ((EncryptedModelRuntime.mk ⟨[], 0, 0⟩ []
          ⟨List.replicate 32 0, List.replicate 16 0⟩ true).LoadModel
        ⟨[], 0, 0⟩ ⟨List.replicate 32 0, List.replicate 16 0⟩).1 = false ∧
    ((EncryptedModelRuntime.mk ⟨[], 0, 0⟩ []
          ⟨List.replicate 32 0, List.replicate 16 0⟩ true).LoadModel
        ⟨[], 0, 0⟩ ⟨List.replicate 32 0, List.replicate 16 0⟩).2.IsLoaded = true := by
  decide

end Dumper

namespace Dumper

/-! ## Theorems: layout normalizer (C2) -/

/-- A successful cursor walk tiles `[cursor, size)` exactly. -/
theorem fillGaps_covers {size : Nat} :
    ∀ (us : List LayoutEntry) (cursor : Nat) (es : List LayoutEntry),
      fillGaps size cursor us = some es → covers size cursor es
  | [], cursor, es, h => by
    unfold fillGaps at h
    by_cases h1 : cursor < size
    · rw [if_pos h1] at h
      cases h
      simp only [covers, LayoutEntry.off, LayoutEntry.ext]
      exact ⟨trivial, by omega⟩
    · rw [if_neg h1] at h
      by_cases h2 : cursor = size
      · rw [if_pos h2] at h
        cases h
        exact h2
      · rw [if_neg h2] at h
        cases h
  | u :: us, cursor, es, h => by
    unfold fillGaps at h
    by_cases h1 : u.off < cursor
    · rw [if_pos h1] at h
      cases h
    · rw [if_neg h1] at h
      by_cases h2 : cursor < u.off
      · rw [if_pos h2] at h
        cases hrec : fillGaps size (u.off + u.ext) us with
        | none => rw [hrec] at h; cases h
        | some rest =>
          rw [hrec] at h
          cases h
          have hc := fillGaps_covers us (u.off + u.ext) rest hrec
          refine ⟨rfl, ?_, ?_⟩
          · show u.off = cursor + (u.off - cursor)
            omega
          · show covers size (cursor + (u.off - cursor) + u.ext) rest
            have heq : cursor + (u.off - cursor) = u.off := by omega
            rw [heq]
            exact hc
      · rw [if_neg h2] at h
        cases hrec : fillGaps size (u.off + u.ext) us with
        | none => rw [hrec] at h; cases h
        | some rest =>
          rw [hrec] at h
          cases h
          have hc := fillGaps_covers us (u.off + u.ext) rest hrec
          have heq : u.off = cursor := by omega
          rw [heq] at hc
          exact ⟨heq, hc⟩

/-- A covering sequence's extents sum to the remaining size. -/
theorem covers_sum {size : Nat} :
    ∀ (es : List LayoutEntry) (cursor : Nat), covers size cursor es →
      cursor + (es.map LayoutEntry.ext).sum = size
  | [], cursor, h => by
    unfold covers at h
    simpa using h
  | e :: es, cursor, h => by
    obtain ⟨h1, h2⟩ := h
    have := covers_sum es (cursor + e.ext) h2
    simp only [List.map_cons, List.sum_cons]
    omega

/-- A covering sequence's offsets are non-decreasing. -/
theorem covers_chain {size : Nat} :
    ∀ (es : List LayoutEntry) (cursor : Nat), covers size cursor es →
      (es.map LayoutEntry.off).Chain' (· ≤ ·)
  | [], _, _ => by simp
  | [e], _, _ => by simp
  | e1 :: e2 :: es, cursor, h => by
    obtain ⟨h1, h2⟩ := h
    obtain ⟨h3, h4⟩ := h2
    have hrest := covers_chain (e2 :: es) (cursor + e1.ext) ⟨h3, h4⟩
    simp only [List.map_cons] at hrest ⊢
    refine List.Chain'.cons ?_ hrest
    omega

/-- C2 (amended).  For every node accepted by the normalizer: the normalized
member sequence has non-decreasing offsets; it tiles the node's own layout
region — from 0, or from the super-type's size when a super exists, up to
the declared node size — contiguously with no gaps and no overlaps, padding
spanning exactly each gap; and the sum of all member and padding extents
equals the node size minus the layout's start offset, hence the node size
exactly when there is no super.  Scenario D: a node of size 16 with 4-byte
members at offsets 0 and 12 normalizes to
`[member@0(4), padding@4(8), member@12(4)]`. -/
theorem normalize_layout (node : LNode) (entries : List LayoutEntry)
    (h : normalize node = some entries) :
    (entries.map LayoutEntry.off).Chain' (· ≤ ·) ∧
    covers node.size node.start entries ∧
    node.start + (entries.map LayoutEntry.ext).sum = node.size ∧
    (node.superSize = none → (entries.map LayoutEntry.ext).sum = node.size) ∧
    normalize ⟨16, none, [⟨"m0", 0, 4, false, none⟩,
        ⟨"m12", 12, 4, false, none⟩]⟩ =
      some [.member ⟨"m0", 0, 4, false, none⟩, .padding 4 8,
            .member ⟨"m12", 12, 4, false, none⟩] := by
  unfold normalize at h
  cases hg : groupBitfields none
      (sortMembers (node.members.filter (fun m => !m.isStatic))) with
  | none => rw [hg] at h; cases h
  | some units =>
    rw [hg] at h
    have hcov : covers node.size node.start entries := fillGaps_covers _ _ _ h
    have hsum := covers_sum entries node.start hcov
    refine ⟨covers_chain entries node.start hcov, hcov, hsum, ?_, by decide⟩
    intro hnone
    have : node.start = 0 := by simp [LNode.start, hnone]
    omega

/-- C2 witness: the normalization facts applied at the Scenario D node. -/
theorem normalize_layout_witness :
    covers 16 0
      [LayoutEntry.member ⟨"m0", 0, 4, false, none⟩, LayoutEntry.padding 4 8,
       LayoutEntry.member ⟨"m12", 12, 4, false, none⟩] :=
  (normalize_layout
      ⟨16, none, [⟨"m0", 0, 4, false, none⟩, ⟨"m12", 12, 4, false, none⟩]⟩
      [.member ⟨"m0", 0, 4, false, none⟩, .padding 4 8,
       .member ⟨"m12", 12, 4, false, none⟩]
      (by decide)).2.1

/-- Demonstration that the normalizer lays out bit-field nodes: three
one-bit members at offset 0 (supplied out of bit order) are sorted by
ascending bit index, grouped into a single one-byte backing storage unit —
the smallest primitive holding bit index + bit width = 3 — and only that
unit triggers the padding logic, giving the trailing `padding@1(3)` in a
node of size 4. -/
theorem normalize_bitfield_grouping :
    normalize ⟨4, none,
      [⟨"b1", 0, 1, false, some ⟨1, 1⟩⟩, ⟨"b0", 0, 1, false, some ⟨0, 1⟩⟩,
       ⟨"b2", 0, 1, false, some ⟨2, 1⟩⟩]⟩ =
      some [.bitfieldUnit 0 1
              [⟨"b0", 0, 1, false, some ⟨0, 1⟩⟩, ⟨"b1", 0, 1, false, some ⟨1, 1⟩⟩,
               ⟨"b2", 0, 1, false, some ⟨2, 1⟩⟩],
            .padding 1 3] := by
  rfl

/-- C2 counterexample: with a super-type of size 4, a node of size 8 whose
own member occupies `[4, 8)` normalizes successfully, but the sum of the
normalized extents is 4, not the node size 8 — the unconditional "sum equals
node size" reading fails when a super exists. -/
theorem normalize_super_sum_ne_size :
    normalize ⟨8, some 4, [⟨"m4", 4, 4, false, none⟩]⟩ =
      some [.member ⟨"m4", 4, 4, false, none⟩] ∧
    ([LayoutEntry.member ⟨"m4", 4, 4, false, none⟩].map LayoutEntry.ext).sum ≠ 8 := by
  decide

end Dumper

namespace Dumper

/-! ## Theorems: collision resolver (C5) -/

/-- A key that fails to look up in the front part of a memo looks up in the
rest. -/
theorem memoLookup_append_of_none {k : Nat × Nat}
    {m1 m2 : List ((Nat × Nat) × String)} (h : memoLookup k m1 = none) :
    memoLookup k (m1 ++ m2) = memoLookup k m2 := by
  induction m1 with
  | nil => rfl
  | cons e es ih =>
    rw [List.cons_append]
    simp only [memoLookup] at h ⊢
    by_cases he : e.1 = k
    · rw [if_pos he] at h
      cases h
    · rw [if_neg he] at h ⊢
      exact ih h

/-- A key that fails to look up is absent from the memo. -/
theorem memoLookup_none_not_mem {k : Nat × Nat}
    {m : List ((Nat × Nat) × String)} (h : memoLookup k m = none) :
    ∀ p ∈ m, p.1 ≠ k := by
  induction m with
  | nil => intro p hp; cases hp
  | cons e es ih =>
    unfold memoLookup at h
    by_cases he : e.1 = k
    · rw [if_pos he] at h
      cases h
    · rw [if_neg he] at h
      intro p hp
      rcases List.mem_cons.mp hp with rfl | hp
      · exact he
      · exact ih h p hp

/-- A successful suffix search returns a free name. -/
theorem findSuffix_free {reserved : List String} {st : ResolverState}
    {scope : Nat} {proposed n : String} :
    ∀ {fuel k : Nat}, findSuffix reserved st scope proposed fuel k = some n →
      nameFree reserved st scope n = true
  | 0, _, h => by cases h
  | fuel + 1, k, h => by
    unfold findSuffix at h
    by_cases hf : nameFree reserved st scope (candidateName proposed k) = true
    · rw [if_pos hf] at h
      cases h
      exact hf
    · rw [if_neg hf] at h
      exact findSuffix_free h

/-- Successful resolution either hits the memo (state unchanged) or issues a
name that was free, appending it to the issued set and the memo. -/
theorem resolve_cases {reserved : List String} {st : ResolverState}
    {scope entity : Nat} {proposed n : String} {st' : ResolverState}
    (h : resolve reserved st scope entity proposed = .ok (n, st')) :
    (memoLookup (scope, entity) st.memo = some n ∧ st' = st) ∨
    (memoLookup (scope, entity) st.memo = none ∧
      nameFree reserved st scope n = true ∧
      st' = ⟨st.issued ++ [(scope, n)], st.memo ++ [((scope, entity), n)]⟩) := by
  unfold resolve at h
  cases hm : memoLookup (scope, entity) st.memo with
  | some n0 =>
    rw [hm] at h
    cases h
    exact Or.inl ⟨rfl, rfl⟩
  | none =>
    rw [hm] at h
    by_cases hf : nameFree reserved st scope proposed = true
    · rw [if_pos hf] at h
      cases h
      exact Or.inr ⟨rfl, hf, rfl⟩
    · rw [if_neg hf] at h
      cases hs : findSuffix reserved st scope proposed
          (st.issued.length + reserved.length + 1) 0 with
      | some n1 =>
        rw [hs] at h
        cases h
        exact Or.inr ⟨rfl, findSuffix_free hs, rfl⟩
      | none =>
        rw [hs] at h
        cases h

/-- Resolution preserves the resolver invariant. -/
theorem resolve_preserves_RInv {reserved : List String} {st : ResolverState}
    {scope entity : Nat} {proposed n : String} {st' : ResolverState}
    (hInv : RInv st) (h : resolve reserved st scope entity proposed = .ok (n, st')) :
    RInv st' := by
  rcases resolve_cases h with ⟨_, rfl⟩ | ⟨hnone, hfree, rfl⟩
  · exact hInv
  · obtain ⟨hIss, hKeys, hDist⟩ := hInv
    have hnotIss : (scope, n) ∉ st.issued := by
      have := hfree
      unfold nameFree at this
      simp only [Bool.and_eq_true, decide_eq_true_eq] at this
      exact this.1
    have hnewKey : ∀ p ∈ st.memo, p.1 ≠ (scope, entity) :=
      memoLookup_none_not_mem hnone
    refine ⟨?_, ?_, ?_⟩
    · intro p hp
      simp only [List.mem_append, List.mem_singleton] at hp
      rcases hp with hp | hp
      · exact List.mem_append_left _ (hIss p hp)
      · rw [hp]
        exact List.mem_append_right _ (List.mem_singleton.mpr rfl)
    · intro p hp q hq hpq
      simp only [List.mem_append, List.mem_singleton] at hp hq
      rcases hp with hp | hp <;> rcases hq with hq | hq
      · exact hKeys p hp q hq hpq
      · subst hq
        exact absurd hpq (hnewKey p hp)
      · subst hp
        exact absurd hpq.symm (hnewKey q hq)
      · rw [hp, hq]
    · intro p hp q hq hsc hent
      simp only [List.mem_append, List.mem_singleton] at hp hq
      rcases hp with hp | hp <;> rcases hq with hq | hq
      · exact hDist p hp q hq hsc hent
      · subst hq
        show p.2 ≠ n
        intro hn
        apply hnotIss
        have hsc2 : p.1.1 = scope := hsc
        have hmem := hIss p hp
        rw [hsc2, hn] at hmem
        exact hmem
      · subst hp
        show n ≠ q.2
        intro hn
        apply hnotIss
        have hsc2 : scope = q.1.1 := hsc
        have hmem := hIss q hq
        rw [← hsc2, ← hn] at hmem
        exact hmem
      · subst hp
        subst hq
        simp at hent

/-- The request fold preserves the resolver invariant. -/
theorem resolveAll_go_RInv {reserved : List String} :
    ∀ (reqs : List (Nat × Nat × String)) (acc : List String × ResolverState)
      (out : List String) (st : ResolverState),
      RInv acc.2 →
      reqs.foldlM
        (fun acc r => do
          let (n, st) ← resolve reserved acc.2 r.1 r.2.1 r.2.2
          pure (acc.1 ++ [n], st))
        acc = .ok (out, st) →
      RInv st
  | [], acc, out, st, hInv, h => by
    simp only [List.foldlM_nil] at h
    cases h
    exact hInv
  | r :: rs, acc, out, st, hInv, h => by
    simp only [List.foldlM_cons] at h
    cases hr : resolve reserved acc.2 r.1 r.2.1 r.2.2 with
    | error e =>
      rw [hr] at h
      cases h
    | ok p =>
      obtain ⟨n, st1⟩ := p
      rw [hr] at h
      exact resolveAll_go_RInv rs (acc.1 ++ [n], st1) out st
        (resolve_preserves_RInv hInv hr) h

/-- C5.  For a fixed collision-resolver scope, distinct logical entities
receive pairwise-distinct final names; re-resolving the identical request by
the same logical entity returns the identical final name (idempotence); and
two members of one scope both proposing the name `Class` resolve to `Class`
and `Class_0` in first-seen order. -/
theorem resolver_distinct_idempotent :
    (∀ (reserved : List String) (reqs : List (Nat × Nat × String))
       (out : List String) (st : ResolverState),
      resolveAll reserved reqs = .ok (out, st) →
      ∀ p ∈ st.memo, ∀ q ∈ st.memo, p.1.1 = q.1.1 → p.1.2 ≠ q.1.2 → p.2 ≠ q.2) ∧
    (∀ (reserved : List String) (st : ResolverState) (scope entity : Nat)
       (proposed n : String) (st' : ResolverState),
      resolve reserved st scope entity proposed = .ok (n, st') →
      resolve reserved st' scope entity proposed = .ok (n, st')) ∧
    (resolveAll [] [(0, 0, "Class"), (0, 1, "Class")]).map Prod.fst =
      .ok ["Class", "Class_0"] := by
  refine ⟨?_, ?_, by rfl⟩
  · intro reserved reqs out st h
    exact (resolveAll_go_RInv reqs ([], ⟨[], []⟩) out st
      ⟨fun p hp => absurd hp (List.not_mem_nil p),
       fun p hp => absurd hp (List.not_mem_nil p),
       fun p hp => absurd hp (List.not_mem_nil p)⟩ h).2.2
  · intro reserved st scope entity proposed n st' h
    rcases resolve_cases h with ⟨hm, rfl⟩ | ⟨hnone, _, rfl⟩
    · unfold resolve
      rw [hm]
    · unfold resolve
      rw [memoLookup_append_of_none hnone]
      unfold memoLookup
      rw [if_pos rfl]

/-- C5 witness: resolving `Class` in the empty state issues `Class`, and
re-resolving the same request by the same entity returns `Class` again with
the state unchanged. -/
theorem resolver_distinct_idempotent_witness :
    resolve [] ⟨[(0, "Class")], [((0, 0), "Class")]⟩ 0 0 "Class" =
      .ok ("Class", ⟨[(0, "Class")], [((0, 0), "Class")]⟩) :=
  resolver_distinct_idempotent.2.1 [] ⟨[], []⟩ 0 0 "Class" "Class"
    ⟨[(0, "Class")], [((0, 0), "Class")]⟩ (by rfl)

end Dumper

namespace Dumper

/-! ## Theorems: dependency walker infrastructure -/

/-- Precedence survives appending on the right. -/
theorem precedes_append {l : List Nat} {a b : Nat} (h : precedes l a b)
    (l' : List Nat) : precedes (l ++ l') a b := by
  obtain ⟨ha, hb, hlt⟩ := h
  exact ⟨List.mem_append_left _ ha, List.mem_append_left _ hb, by
    rw [List.indexOf_append_of_mem ha, List.indexOf_append_of_mem hb]; exact hlt⟩

/-- An element of the order precedes a freshly appended element. -/
theorem precedes_append_new {l : List Nat} {a b : Nat} (ha : a ∈ l)
    (hb : b ∉ l) : precedes (l ++ [b]) a b := by
  refine ⟨List.mem_append_left _ ha,
    List.mem_append_right _ (List.mem_singleton.mpr rfl), ?_⟩
  rw [List.indexOf_append_of_mem ha, List.indexOf_append_of_not_mem hb]
  have := List.indexOf_lt_length.mpr ha
  omega

/-- In a well-formed node set, every dependency target of a real node is a
real node. -/
theorem deps_target_lt {ns : List GNode} (hWF : WFNodes ns) {i : Nat}
    (hi : i < ns.length) :
    ∀ d ∈ (ns.getD i default).deps, d.1 < ns.length := by
  intro d hd
  have hmem : ns.getD i default ∈ ns := by
    rw [List.getD_eq_getElem ns default hi]
    exact List.getElem_mem hi
  obtain ⟨hsup, hmemb⟩ := hWF _ hmem
  unfold GNode.deps at hd
  rcases List.mem_append.mp hd with hd | hd
  · cases hsr : (ns.getD i default).superRef with
    | none => rw [hsr] at hd; cases hd
    | some s =>
      rw [hsr] at hd
      rcases List.mem_singleton.mp hd with rfl
      exact hsup s hsr
  · obtain ⟨m, hm, hdm⟩ := List.mem_map.mp hd
    rw [← hdm]
    exact hmemb m hm

/-- A pointer-flagged dependency edge comes from a pointer-storage member. -/
theorem deps_ptr_member {nd : GNode} {t : Nat} (h : (t, true) ∈ nd.deps) :
    ∃ m ∈ nd.members, m.typeRef = t ∧ m.storage = Storage.ptr := by
  unfold GNode.deps at h
  rcases List.mem_append.mp h with h | h
  · cases hsr : nd.superRef with
    | none => rw [hsr] at h; cases h
    | some s =>
      rw [hsr] at h
      have := List.mem_singleton.mp h
      simp at this
  · obtain ⟨m, hm, heq⟩ := List.mem_map.mp h
    have h1 : m.typeRef = t := congrArg Prod.fst heq
    have h2 : (m.storage == Storage.ptr) = true := congrArg Prod.snd heq
    exact ⟨m, hm, h1, beq_iff_eq.mp h2⟩

/-- With no fuel, `visit` never succeeds, so its specification holds
vacuously. -/
theorem visit_spec_zero (ns : List GNode) : VisitSpec ns 0 := by
  intro i st st' _ _ _ h
  simp only [visit] at h
  cases h

/-- The dependency-processing step satisfies its specification whenever the
supplied visitation function does. -/
theorem visitDeps_spec (ns : List GNode) (hWF : WFNodes ns)
    (visitF : Nat → WalkState → Except WalkError WalkState)
    (hP : VisitFSpec ns visitF) : VisitDepsSpec ns visitF := by
  intro i ds
  induction ds with
  | nil =>
    intro st st' hInv hi histk hds h
    simp only [visitDeps] at h
    cases h
    exact ⟨hInv, rfl, ⟨[], (List.append_nil _).symm⟩,
      ⟨[], (List.append_nil _).symm⟩, fun d hd => absurd hd (List.not_mem_nil d)⟩
  | cons d ds ih =>
    intro st st' hInv hi histk hds h
    obtain ⟨t, isPtr⟩ := d
    simp only [visitDeps] at h
    by_cases hstk : t ∈ st.onStack
    · rw [if_pos hstk] at h
      by_cases hptr : isPtr = true
      · subst hptr
        rw [if_pos rfl] at h
        have hdh : ((t, true) : Nat × Bool) ∈ (ns.getD i default).deps :=
          hds _ (List.mem_cons_self _ _)
        have hInvF : WalkInv ns { st with fwd := st.fwd ++ [(i, t)] } := by
          obtain ⟨h1, h2, h3, h4, h5⟩ := hInv
          refine ⟨h1, h2, h3, ?_, ?_⟩
          · intro j hj d hd
            rcases h4 j hj d hd with ⟨hf, hb⟩ | hp
            · exact Or.inl ⟨List.mem_append_left _ hf, hb⟩
            · exact Or.inr hp
          · intro p hp
            rcases List.mem_append.mp hp with hp | hp
            · exact h5 p hp
            · rcases List.mem_singleton.mp hp with rfl
              exact deps_ptr_member hdh
        have hres := ih { st with fwd := st.fwd ++ [(i, t)] } st' hInvF hi histk
          (fun d hd => hds d (List.mem_cons_of_mem _ hd)) h
        obtain ⟨hInv', hstk', ⟨tl, htl⟩, ⟨tf, htf⟩, hdeps'⟩ := hres
        refine ⟨hInv', hstk', ⟨tl, htl⟩,
          ⟨(i, t) :: tf, by rw [htf]; simp⟩, ?_⟩
        intro d hd
        rcases List.mem_cons.mp hd with rfl | hd
        · refine Or.inl ⟨?_, rfl⟩
          rw [htf]
          exact List.mem_append_left _ (List.mem_append_right _
            (List.mem_singleton.mpr rfl))
        · exact hdeps' d hd
      · rw [if_neg hptr] at h
        cases h
    · rw [if_neg hstk] at h
      cases hv : visitF t st with
      | error e => rw [hv] at h; cases h
      | ok st1 =>
        rw [hv] at h
        have ht : t < ns.length :=
          deps_target_lt hWF hi (t, isPtr) (hds _ (List.mem_cons_self _ _))
        obtain ⟨hInv1, hstk1, ⟨tl1, htl1⟩, ⟨tf1, htf1⟩, htmem⟩ :=
          hP t st st1 hInv ht hstk hv
        have histk1 : i ∈ st1.onStack := by rw [hstk1]; exact histk
        obtain ⟨hInv', hstk', ⟨tl2, htl2⟩, ⟨tf2, htf2⟩, hdeps'⟩ :=
          ih st1 st' hInv1 hi histk1
            (fun d hd => hds d (List.mem_cons_of_mem _ hd)) h
        refine ⟨hInv', by rw [hstk', hstk1],
          ⟨tl1 ++ tl2, by rw [htl2, htl1, List.append_assoc]⟩,
          ⟨tf1 ++ tf2, by rw [htf2, htf1, List.append_assoc]⟩, ?_⟩
        intro d hd
        rcases List.mem_cons.mp hd with rfl | hd
        · refine Or.inr ?_
          rw [htl2]
          exact List.mem_append_left _ htmem
        · exact hdeps' d hd

/-- One more unit of fuel lets `visit` satisfy its specification whenever
the dependency step does at the smaller fuel. -/
theorem visit_spec_succ (ns : List GNode) (fuel : Nat)
    (hQ : VisitDepsSpec ns (fun t st1 => visit ns fuel t st1)) :
    VisitSpec ns (fuel + 1) := by
  intro i st st' hInv hi hstk h
  simp only [visit] at h
  by_cases hmem : i ∈ st.order
  · rw [if_pos hmem] at h
    cases h
    exact ⟨hInv, rfl, ⟨[], (List.append_nil _).symm⟩,
      ⟨[], (List.append_nil _).symm⟩, hmem⟩
  · rw [if_neg hmem] at h
    cases hvd : visitDeps (fun t st1 => visit ns fuel t st1) i
        (ns.getD i default).deps { st with onStack := i :: st.onStack } with
    | error e => rw [hvd] at h; cases h
    | ok st2 =>
      rw [hvd] at h
      cases h
      have hInvPush : WalkInv ns { st with onStack := i :: st.onStack } := by
        obtain ⟨h1, h2, h3, h4, h5⟩ := hInv
        refine ⟨h1, ?_, h3, h4, h5⟩
        intro j hj
        have hji : j ≠ i := fun he => hmem (he ▸ hj)
        simp only [List.mem_cons]
        push_neg
        exact ⟨hji, h2 j hj⟩
      obtain ⟨hInv2, hstk2, ⟨tl, htl⟩, ⟨tf, htf⟩, hdeps⟩ :=
        hQ i (ns.getD i default).deps _ st2 hInvPush hi
          (List.mem_cons_self _ _) (fun d hd => hd) hvd
      have hi2 : i ∉ st2.order := by
        intro hc
        have h6 := hInv2.2.1 i hc
        rw [hstk2] at h6
        exact h6 (List.mem_cons_self i st.onStack)
      obtain ⟨h1, h2, h3, h4, h5⟩ := hInv2
      refine ⟨⟨?_, ?_, ?_, ?_, h5⟩, rfl, ⟨tl ++ [i], by
          rw [htl]; simp⟩, ⟨tf, htf⟩,
        List.mem_append_right _ (List.mem_singleton.mpr rfl)⟩
      · rw [List.nodup_append]
        exact ⟨h1, List.nodup_singleton i,
          fun a ha hb => (List.mem_singleton.mp hb ▸ hi2) ha⟩
      · intro j hj
        rcases List.mem_append.mp hj with hj | hj
        · have := h2 j hj
          rw [hstk2] at this
          exact fun hc => this (List.mem_cons_of_mem _ hc)
        · rcases List.mem_singleton.mp hj with rfl
          exact hstk
      · intro j hj
        rcases List.mem_append.mp hj with hj | hj
        · exact h3 j hj
        · rcases List.mem_singleton.mp hj with rfl
          exact hi
      · intro j hj d hd
        rcases List.mem_append.mp hj with hj | hj
        · rcases h4 j hj d hd with ⟨hf, hb⟩ | hp
          · exact Or.inl ⟨hf, hb⟩
          · exact Or.inr (precedes_append hp [i])
        · rcases List.mem_singleton.mp hj with rfl
          rcases hdeps d hd with ⟨hf, hb⟩ | hp
          · exact Or.inl ⟨hf, hb⟩
          · exact Or.inr (precedes_append_new hp hi2)

/-- The `visit` specification holds at every fuel. -/
theorem visit_spec (ns : List GNode) (hWF : WFNodes ns) :
    ∀ fuel, VisitSpec ns fuel := by
  intro fuel
  induction fuel with
  | zero => exact visit_spec_zero ns
  | succ fuel ih => exact visit_spec_succ ns fuel (visitDeps_spec ns hWF _ ih)

/-- Folding `visit` over a list of roots from a stack-free invariant state
preserves the invariant and emits every root. -/
theorem visitRoots_go (ns : List GNode) (hWF : WFNodes ns) :
    ∀ (roots : List Nat) (st0 st' : WalkState),
      (∀ r ∈ roots, r < ns.length) → WalkInv ns st0 → st0.onStack = [] →
      roots.foldlM (fun st i => visit ns (fuelBound ns) i st) st0 = .ok st' →
      WalkInv ns st' ∧ st'.onStack = [] ∧
      (∃ tl, st'.order = st0.order ++ tl) ∧ (∀ r ∈ roots, r ∈ st'.order)
  | [], st0, st', hroots, hInv, hstk, h => by
    simp only [List.foldlM_nil] at h
    cases h
    exact ⟨hInv, hstk, ⟨[], (List.append_nil _).symm⟩,
      fun r hr => absurd hr (List.not_mem_nil r)⟩
  | r :: rs, st0, st', hroots, hInv, hstk, h => by
    simp only [List.foldlM_cons] at h
    cases hv : visit ns (fuelBound ns) r st0 with
    | error e => rw [hv] at h; cases h
    | ok st1 =>
      rw [hv] at h
      obtain ⟨hInv1, hstk1, ⟨tl1, htl1⟩, _, hrmem⟩ :=
        visit_spec ns hWF (fuelBound ns) r st0 st1 hInv
          (hroots r (List.mem_cons_self _ _)) (by rw [hstk]; exact List.not_mem_nil r) hv
      obtain ⟨hInv', hstk', ⟨tl2, htl2⟩, hmem'⟩ :=
        visitRoots_go ns hWF rs st1 st'
          (fun x hx => hroots x (List.mem_cons_of_mem _ hx)) hInv1
          (by rw [hstk1, hstk]) h
      refine ⟨hInv', hstk',
        ⟨tl1 ++ tl2, by rw [htl2, htl1, List.append_assoc]⟩, ?_⟩
      intro x hx
      rcases List.mem_cons.mp hx with rfl | hx
      · rw [htl2]; exact List.mem_append_left _ hrmem
      · exact hmem' x hx

/-- Facts about a successful full walk: duplicate-free complete emission
order over exactly the node set, dependency edges either reclassified
(pointer-storage only) or emitted in dependency-first order. -/
theorem visit_all_ok_facts (ns : List GNode) (st : WalkState)
    (hWF : WFNodes ns) (h : visit_all ns = .ok st) :
    st.order.Nodup ∧ (∀ j ∈ st.order, j < ns.length) ∧
    (∀ i, i < ns.length → i ∈ st.order) ∧
    (∀ j ∈ st.order, ∀ d ∈ (ns.getD j default).deps,
      ((j, d.1) ∈ st.fwd ∧ d.2 = true) ∨ precedes st.order d.1 j) ∧
    (∀ p ∈ st.fwd, ∃ m ∈ (ns.getD p.1 default).members,
      m.typeRef = p.2 ∧ m.storage = Storage.ptr) := by
  unfold visit_all visitRoots at h
  obtain ⟨⟨h1, h2, h3, h4, h5⟩, _, _, hmem⟩ :=
    visitRoots_go ns hWF (List.range ns.length) ⟨[], [], []⟩ st
      (fun r hr => List.mem_range.mp hr)
      ⟨List.nodup_nil, fun j hj => absurd hj (List.not_mem_nil j),
       fun j hj => absurd hj (List.not_mem_nil j),
       fun j hj => absurd hj (List.not_mem_nil j),
       fun p hp => absurd hp (List.not_mem_nil p)⟩
      rfl h
  exact ⟨h1, h3, fun i hi => hmem i (List.mem_range.mpr hi), h4, h5⟩

end Dumper

namespace Dumper

/-! ## Theorems: dependency walk ordering and cycles (C1, C3, C4) -/

/-- C1.  A successful dependency walk emits every node of the node set
exactly once (each index occurs once in the order, and the order contains
only node-set indices), and for every gating edge — the `inherits` edge, and
every member edge not reclassified to `member-pointer` — the dependency's
emission index is strictly below the dependent's.  Reclassified
(`member-pointer`) edges impose no ordering constraint. -/
theorem dependency_walk_topological (ns : List GNode) (st : WalkState)
    (hWF : WFNodes ns) (h : visit_all ns = .ok st) :
    (∀ i, i < ns.length → st.order.count i = 1) ∧
    (∀ j ∈ st.order, j < ns.length) ∧
    (∀ i, i < ns.length →
      (∀ s, (ns.getD i default).superRef = some s → precedes st.order s i) ∧
      (∀ m ∈ (ns.getD i default).members,
        (i, m.typeRef) ∉ st.fwd → precedes st.order m.typeRef i)) := by
  obtain ⟨h1, h2, h3, h4, h5⟩ := visit_all_ok_facts ns st hWF h
  refine ⟨fun i hi => List.count_eq_one_of_mem h1 (h3 i hi), h2,
    fun i hi => ⟨?_, ?_⟩⟩
  · intro s hs
    have hd : ((s, false) : Nat × Bool) ∈ (ns.getD i default).deps := by
      unfold GNode.deps
      rw [hs]
      exact List.mem_append_left _ (List.mem_singleton.mpr rfl)
    rcases h4 i (h3 i hi) _ hd with ⟨_, hb⟩ | hp
    · simp at hb
    · exact hp
  · intro m hm hnf
    have hd : ((m.typeRef, m.storage == Storage.ptr) : Nat × Bool) ∈
        (ns.getD i default).deps := by
      unfold GNode.deps
      exact List.mem_append_right _ (List.mem_map.mpr ⟨m, hm, rfl⟩)
    rcases h4 i (h3 i hi) _ hd with ⟨hf, _⟩ | hp
    · exact absurd hf hnf
    · exact hp

/-- C1 witness: the walk facts applied to the three-node chain
`A ← B (by value) ← C (inherits)`, which the walk emits as `[0, 1, 2]` — in
particular node 0 is emitted once and the member dependency of node 1
precedes it. -/
theorem dependency_walk_topological_witness :
    (WalkState.mk [0, 1, 2] [] []).order.count 0 = 1 ∧
    precedes [0, 1, 2] 0 1 :=
  ⟨(dependency_walk_topological
      [⟨none, [], "A"⟩, ⟨none, [⟨.value, 0⟩], "B"⟩, ⟨some 1, [], "C"⟩]
      ⟨[0, 1, 2], [], []⟩ (by decide) (by rfl)).1 0 (by decide),
   ((dependency_walk_topological
      [⟨none, [], "A"⟩, ⟨none, [⟨.value, 0⟩], "B"⟩, ⟨some 1, [], "C"⟩]
      ⟨[0, 1, 2], [], []⟩ (by decide) (by rfl)).2.2 1 (by decide)).2
      ⟨Storage.value, 0⟩ (by decide) (by decide)⟩

/-- C3.  A dependency cycle consisting of two by-value member edges can
never be walked to a successful ordering — in any well-formed node set where
node `i` stores node `j` by value and `j` stores `i` by value, `visit_all`
does not return an ordering; and on the minimal two-node instance
(Scenario B) the walk reports exactly `UnresolvableCycle`, naming both
nodes of the closing by-value edge. -/
theorem value_cycle_unresolvable :
    (∀ (ns : List GNode) (i j : Nat), WFNodes ns →
      i < ns.length → j < ns.length →
      (∃ m ∈ (ns.getD i default).members,
        m.typeRef = j ∧ m.storage = Storage.value) →
      (∃ m ∈ (ns.getD j default).members,
        m.typeRef = i ∧ m.storage = Storage.value) →
      ∀ st, visit_all ns ≠ .ok st) ∧
    visit_all [⟨none, [⟨.value, 1⟩], "X"⟩, ⟨none, [⟨.value, 0⟩], "Y"⟩] =
      .error (.unresolvableCycle 1 0) := by
  refine ⟨?_, by rfl⟩
  intro ns i j hWF hi hj hij hji st h
  obtain ⟨h1, h2, h3, h4, h5⟩ := visit_all_ok_facts ns st hWF h
  obtain ⟨mij, hmij, hmijt, hmijs⟩ := hij
  obtain ⟨mji, hmji, hmjit, hmjis⟩ := hji
  have hdij : ((j, false) : Nat × Bool) ∈ (ns.getD i default).deps := by
    unfold GNode.deps
    refine List.mem_append_right _ (List.mem_map.mpr ⟨mij, hmij, ?_⟩)
    rw [hmijt, hmijs]
    rfl
  have hdji : ((i, false) : Nat × Bool) ∈ (ns.getD j default).deps := by
    unfold GNode.deps
    refine List.mem_append_right _ (List.mem_map.mpr ⟨mji, hmji, ?_⟩)
    rw [hmjit, hmjis]
    rfl
  have hpij : precedes st.order j i := by
    rcases h4 i (h3 i hi) _ hdij with ⟨_, hb⟩ | hp
    · simp at hb
    · exact hp
  have hpji : precedes st.order i j := by
    rcases h4 j (h3 j hj) _ hdji with ⟨_, hb⟩ | hp
    · simp at hb
    · exact hp
  obtain ⟨_, _, hlt1⟩ := hpij
  obtain ⟨_, _, hlt2⟩ := hpji
  omega

/-- C3 witness: the impossibility applied at the Scenario B node set. -/
theorem value_cycle_unresolvable_witness :
    visit_all [⟨none, [⟨.value, 1⟩], "X"⟩, ⟨none, [⟨.value, 0⟩], "Y"⟩] ≠
      .ok ⟨[0, 1], [], []⟩ :=
  value_cycle_unresolvable.1
    [⟨none, [⟨.value, 1⟩], "X"⟩, ⟨none, [⟨.value, 0⟩], "Y"⟩] 0 1
    (by decide) (by decide) (by decide)
    ⟨⟨Storage.value, 1⟩, by decide, rfl, rfl⟩
    ⟨⟨Storage.value, 0⟩, by decide, rfl, rfl⟩
    ⟨[0, 1], [], []⟩

/-- C4 (amended).  Every edge the walk reclassifies to `member-pointer`
(recorded for forward declaration) comes from a member whose declared
storage is pointer/reference; and in Scenario C — `X` (index 0) holds `Y`
(index 1) by value while `Y` holds `X` through a pointer member — the walk
succeeds by breaking the `Y → X` edge: `Y`'s `X` member is marked for
forward declaration and `Y` is emitted in full before `X`, honouring `X`'s
by-value dependency on `Y` (the walk cannot place `X` first, since `X`
requires `Y`'s full definition). -/
theorem cycle_broken_by_pointer_member :
    (∀ (ns : List GNode) (st : WalkState), WFNodes ns → visit_all ns = .ok st →
      ∀ p ∈ st.fwd, ∃ m ∈ (ns.getD p.1 default).members,
        m.typeRef = p.2 ∧ m.storage = Storage.ptr) ∧
    visit_all [⟨none, [⟨.value, 1⟩], "X"⟩, ⟨none, [⟨.ptr, 0⟩], "Y"⟩] =
      .ok ⟨[1, 0], [], [(1, 0)]⟩ := by
  refine ⟨?_, by rfl⟩
  intro ns st hWF h
  exact (visit_all_ok_facts ns st hWF h).2.2.2.2

/-- C4 witness: the reclassification fact applied at the Scenario C node
set — the forward-declared edge `(1, 0)` indeed comes from `Y`'s
pointer-storage member of type `X`. -/
theorem cycle_broken_by_pointer_member_witness :
    ∃ m ∈ (([⟨none, [⟨.value, 1⟩], "X"⟩,
             ⟨none, [⟨.ptr, 0⟩], "Y"⟩] : List GNode).getD 1 default).members,
      m.typeRef = 0 ∧ m.storage = Storage.ptr :=
  cycle_broken_by_pointer_member.1
    [⟨none, [⟨.value, 1⟩], "X"⟩, ⟨none, [⟨.ptr, 0⟩], "Y"⟩]
    ⟨[1, 0], [], [(1, 0)]⟩ (by decide) (by rfl) (1, 0) (by decide)

/-- C4 counterexample: in Scenario C the walk emits `Y` (index 1) in full
before `X` (index 0) — the emission order is `[1, 0]` — so the claim's
"X is emitted in full before Y" is false: node 0 does not precede node 1. -/
theorem scenarioC_emits_Y_before_X :
    visit_all [⟨none, [⟨.value, 1⟩], "X"⟩, ⟨none, [⟨.ptr, 0⟩], "Y"⟩] =
      .ok ⟨[1, 0], [], [(1, 0)]⟩ ∧
    ¬ precedes [1, 0] 0 1 := by
  refine ⟨by rfl, by decide⟩

end Dumper

namespace Dumper

/-! ## Theorems: determinism (C6) -/

/-- C6.  The pipeline's output does not depend on the iteration order in
which the unordered node container presents the node indices: any two
iteration orders that are permutations of each other produce identical
emission orderings, identical forward-declaration sets and identical
resolved identifiers, because the pipeline first resolves the iteration to
ascending stable node index.  In particular two runs over the same node set
agree byte for byte. -/
theorem pipeline_deterministic (ns : List GNode) (iter1 iter2 : List Nat)
    (h : iter1.Perm iter2) :
    fullPipeline ns iter1 = fullPipeline ns iter2 := by
  have hs : List.insertionSort (· ≤ ·) iter1 = List.insertionSort (· ≤ ·) iter2 :=
    List.eq_of_perm_of_sorted
      ((List.perm_insertionSort _ iter1).trans
        (h.trans (List.perm_insertionSort _ iter2).symm))
      (List.sorted_insertionSort _ iter1) (List.sorted_insertionSort _ iter2)
  unfold fullPipeline
  rw [hs]

/-- C6 witness: two opposite iteration orders of a two-node set give the
same pipeline output. -/
theorem pipeline_deterministic_witness :
    fullPipeline [⟨none, [], "A"⟩, ⟨none, [⟨.value, 0⟩], "B"⟩] [1, 0] =
      fullPipeline [⟨none, [], "A"⟩, ⟨none, [⟨.value, 0⟩], "B"⟩] [0, 1] :=
  pipeline_deterministic [⟨none, [], "A"⟩, ⟨none, [⟨.value, 0⟩], "B"⟩] [1, 0] [0, 1]
    (by decide)

end Dumper
